import Mathlib

/-!
Verification of the Study Coach core (`app/agent.py`).

The three tools `get_module_outline`, `build_study_schedule` and
`suggest_practice_tasks` are embedded as pure Lean functions.  Python floats
are modelled by exact rationals (`ℚ`); the Python `round(x, 1)` (round half to
even) is modelled by `roundTenth`; the `while` loop of the day packer is
modelled by a fueled loop `packLoop` together with a fuel bound `fuelFor`
that is proved sufficient.  String-returning outcomes are modelled by tagged
result types (`NotFound` / `Unbuildable` / `NoMatches` versus a structured
success payload), since only the presence of schedule lines distinguishes
the outcomes in the source.
-/

/-- Test whether list `p` occurs at the head of `l`
(character-by-character equality). -/
def leadEq : List Char → List Char → Bool
  | [], _ => true
  | _ :: _, [] => false
  | a :: asl, b :: bs => a == b && leadEq asl bs

/-- Test whether `needle` occurs contiguously somewhere in `hay`
(the Python `needle in hay` on strings). -/
def hasSub : List Char → List Char → Bool
  | needle, [] => needle.isEmpty
  | needle, c :: tl => leadEq needle (c :: tl) || hasSub needle tl

/-- Python `needle in hay` for strings. -/
def strIn (needle hay : String) : Bool :=
  hasSub needle.data hay.data

/-- Python `str.lower` (ASCII case folding, which covers all data used
here). -/
def lowerStr (s : String) : String :=
  ⟨s.data.map Char.toLower⟩

/-- Python `str.strip`: drop leading and trailing whitespace. -/
def trimChars (l : List Char) : List Char :=
  ((l.dropWhile Char.isWhitespace).reverse.dropWhile Char.isWhitespace).reverse

/-- Python `str.strip` on strings. -/
def trimStr (s : String) : String :=
  ⟨trimChars s.data⟩

/-- Key normalization `module_name.lower().strip()` applied before
every `SYLLABUS` lookup. -/
def normKey (s : String) : String :=
  trimStr (lowerStr s)

/-- Python `s.split(",")`. -/
def splitComma : List Char → List (List Char)
  | [] => [[]]
  | c :: tl =>
    if c = ',' then [] :: splitComma tl
    else
      match splitComma tl with
      | [] => [[c]]
      | g :: gs => (c :: g) :: gs

/-- Comma-list parsing: the comprehension over `s.split(",")` keeping
`w.strip().lower()` for each `w` with nonempty `w.strip()`, used for both
`weak_topics` and `focus_topics`. -/
def parseCSV (s : String) : List String :=
  (splitComma s.data).filterMap (fun w =>
    let t := trimChars w
    if t.isEmpty then none else some ⟨t.map Char.toLower⟩)

/-- Round a rational to the nearest integer, ties to even
(the Python `round`). -/
def rnd2 (y : ℚ) : ℤ :=
  if y - ⌊y⌋ < 1/2 then ⌊y⌋
  else if 1/2 < y - ⌊y⌋ then ⌊y⌋ + 1
  else if ⌊y⌋ % 2 = 0 then ⌊y⌋ else ⌊y⌋ + 1

/-- The Python `round(x, 1)`: round to one decimal place, ties to even. -/
def roundTenth (x : ℚ) : ℚ :=
  (rnd2 (10 * x) : ℚ) / 10

/-- The `SYLLABUS` table of `agent.py`. -/
def SYLLABUS : List (String × List String) :=
  [("generative ai",
    ["LLM fundamentals",
     "Prompt engineering",
     "OpenAI & Groq APIs",
     "LangChain basics",
     "Agents and Tools",
     "RAG",
     "Agent security & guardrails"])]

/-- The `PRACTICE_TASKS` table of `agent.py`. -/
def PRACTICE_TASKS : List (String × List String) :=
  [("LLM fundamentals",
    ["Explain in your own words what an LLM is and how it is trained.",
     "Compare two LLM architectures and list their pros/cons."]),
   ("Prompt engineering",
    ["Write prompts in zero-shot, few-shot and chain-of-thought styles.",
     "Rewrite a vague prompt into a precise, constrained one."]),
   ("LangChain basics",
    ["Build a simple LangChain LLMChain using a PromptTemplate.",
     "Create a LangChain chain that calls two steps in sequence."]),
   ("Agents and Tools",
    ["Create a ReAct agent that uses at least two tools.",
     "Implement a custom LangChain tool and expose it to an agent."]),
   ("RAG",
    ["Implement a basic RAG pipeline using a single PDF.",
     "Experiment with different chunk sizes and compare answer quality."]),
   ("Agent security & guardrails",
    ["Design a simple prompt-based safety policy for your agent.",
     "Add checks to block obviously unsafe or irrelevant queries."])]

/-- Dictionary lookup `SYLLABUS.get(key)`. -/
def syllabusGet (key : String) : Option (List String) :=
  SYLLABUS.lookup key

/-- Lookup `PRACTICE_TASKS.get(topic, [])` with default `[]`. -/
def tasksFor (topic : String) : List String :=
  (PRACTICE_TASKS.lookup topic).getD []

/-- Test `any(w in t.lower() for w in weak_list)`: the topic matches some
weak/focus substring (substrings are already lower-cased by `parseCSV`). -/
def isWeakTopic (weak_list : List String) (t : String) : Bool :=
  weak_list.any (fun w => strIn w (lowerStr t))

/-- Weight of one topic: `2 if any(w in t.lower() for w in weak_list) else 1`. -/
def weightOf (weak_list : List String) (t : String) : ℕ :=
  if isWeakTopic weak_list t then 2 else 1

/-- The weight list (`weights` in `build_study_schedule`). -/
def topicWeights (weak_list : List String) (topics : List String) : List ℕ :=
  topics.map (weightOf weak_list)

/-- Allocation `hours_per_topic = [(w / total_weight) * total_hours for w in weights]`. -/
def topicHours (days_until_exam : ℕ) (hours_per_day : ℚ)
    (weak_list : List String) (topics : List String) : List ℚ :=
  let weights := topicWeights weak_list topics
  let total_weight : ℕ := weights.sum
  let total_hours : ℚ := (days_until_exam : ℚ) * hours_per_day
  weights.map (fun w : ℕ => ((w : ℚ) / (total_weight : ℚ)) * total_hours)

/-- The mutable state of the packing loops: the current-day cursor and the
per-day entry lists (`schedule[day]` is `sched.getD (day - 1) []`). -/
structure PackSt where
  day : ℕ
  sched : List (List (String × ℚ))
deriving DecidableEq

/-- Result of the `while` loop of one topic: final state plus leftover
`remaining` hours. -/
structure LoopRes where
  st : PackSt
  rem : ℚ
deriving DecidableEq

/-- Append `schedule[day].append(entry)` for `day - 1 = i`. -/
def appendAt (sched : List (List (String × ℚ))) (i : ℕ) (e : String × ℚ) :
    List (List (String × ℚ)) :=
  sched.set i (sched.getD i [] ++ [e])

/-- The inner `while remaining > 0 and day <= days_until_exam` loop of
`build_study_schedule`, made total by a fuel parameter. -/
def packLoop (hpd : ℚ) (d : ℕ) (topic : String) :
    ℕ → ℚ → PackSt → LoopRes
  | 0, remaining, st => ⟨st, remaining⟩
  | fuel + 1, remaining, st =>
    if 0 < remaining ∧ st.day ≤ d then
      let chunk := min remaining (hpd / 2)
      let sched1 := appendAt st.sched (st.day - 1) (topic, roundTenth chunk)
      let day_load := ((sched1.getD (st.day - 1) []).map Prod.snd).sum
      let day1 := if hpd * (9/10) ≤ day_load then st.day + 1 else st.day
      packLoop hpd d topic fuel (remaining - chunk) ⟨day1, sched1⟩
    else ⟨st, remaining⟩

/-- Fuel sufficient for `packLoop` on `hrs` remaining hours: the loop
consumes `hpd / 2` per iteration except for the final short chunk. -/
def fuelFor (hpd hrs : ℚ) : ℕ :=
  (Int.ceil (2 * hrs / hpd)).toNat + 1

/-- The outer `for topic, hours in zip(topics, hours_per_topic)` loop. -/
def packAll (hpd : ℚ) (d : ℕ) : List (String × ℚ) → PackSt → PackSt
  | [], st => st
  | (topic, hrs) :: rest, st =>
    packAll hpd d rest (packLoop hpd d topic (fuelFor hpd hrs) hrs st).st

/-- Collect the nonempty days in day order, numbering from `day0`
(days with no entries are omitted from the output, as in the formatter). -/
def toDays (day0 : ℕ) : List (List (String × ℚ)) → List (ℕ × List (String × ℚ))
  | [] => []
  | es :: rest =>
    if es = [] then toDays (day0 + 1) rest
    else (day0, es) :: toDays (day0 + 1) rest

/-- Outcome of `get_module_outline`. -/
inductive OutlineResult where
  | notFound (module_name : String)
  | outline (module_name : String) (topics : List String)
deriving DecidableEq

/-- Embedding of `get_module_outline` (`agent.py`), with the formatted
string replaced by its structured payload. -/
def get_module_outline (module_name : String) : OutlineResult :=
  match syllabusGet (normKey module_name) with
  | none => .notFound module_name
  | some topics =>
    if topics.isEmpty then .notFound module_name
    else .outline module_name topics

/-- Outcome of `build_study_schedule`. -/
inductive ScheduleResult where
  | notFound (module_name : String)
  | unbuildable
  | schedule (perDay : List (ℕ × List (String × ℚ)))
deriving DecidableEq

/-- Embedding of `build_study_schedule` (`agent.py`): weighting, proportional hour
allocation, greedy day packing, and the `len(lines) > 4` check (true exactly
when some day has at least one entry). -/
def build_study_schedule (module_name : String) (days_until_exam : ℕ)
    (hours_per_day : ℚ) (weak_topics : String) : ScheduleResult :=
  match syllabusGet (normKey module_name) with
  | none => .notFound module_name
  | some topics =>
    if topics.isEmpty then .notFound module_name
    else
      let weak_list := parseCSV weak_topics
      let hours_per_topic := topicHours days_until_exam hours_per_day weak_list topics
      let final := packAll hours_per_day days_until_exam
        (topics.zip hours_per_topic)
        ⟨1, List.replicate days_until_exam []⟩
      let out := toDays 1 final.sched
      if out.isEmpty then .unbuildable else .schedule out

/-- Outcome of `suggest_practice_tasks`. -/
inductive TaskResult where
  | notFound (module_name : String)
  | noMatches
  | tasks (perTopic : List (String × List String))
deriving DecidableEq

/-- The body of the topic loop of `suggest_practice_tasks`: skip topics that
match no focus substring (when the focus list is nonempty) and topics with no
registered tasks; otherwise emit the topic with its task list. -/
def taskEntry (focus_list : List String) (topic : String) :
    Option (String × List String) :=
  if ¬focus_list.isEmpty ∧ ¬isWeakTopic focus_list topic then none
  else
    let ts := tasksFor topic
    if ts.isEmpty then none else some (topic, ts)

/-- Embedding of `suggest_practice_tasks` (`agent.py`), with the formatted
string replaced by its structured payload. -/
def suggest_practice_tasks (module_name focus_topics : String) : TaskResult :=
  match syllabusGet (normKey module_name) with
  | none => .notFound module_name
  | some topics =>
    if topics.isEmpty then .notFound module_name
    else
      let focus_list := parseCSV focus_topics
      let per := topics.filterMap (taskEntry focus_list)
      if per.isEmpty then .noMatches else .tasks per

/-- Total hours over all entries of a formatted schedule. -/
def outSum (l : List (ℕ × List (String × ℚ))) : ℚ :=
  (l.map (fun p => (p.2.map Prod.snd).sum)).sum

/-- Total number of entries of a formatted schedule. -/
def outCount (l : List (ℕ × List (String × ℚ))) : ℕ :=
  (l.map (fun p => p.2.length)).sum

/-- Total hours over all entries of the raw per-day matrix. -/
def schedSum (s : List (List (String × ℚ))) : ℚ :=
  (s.map (fun es => (es.map Prod.snd).sum)).sum

/-- Total number of entries of the raw per-day matrix. -/
def schedCount (s : List (List (String × ℚ))) : ℕ :=
  (s.map List.length).sum

/-- Every entry of the formatted schedule allots at most `b` hours. -/
def entriesLeB (b : ℚ) (l : List (ℕ × List (String × ℚ))) : Bool :=
  l.all (fun p => p.2.all (fun e => e.2 ≤ b))

/-- The result is a schedule whose first listed day is day 1 with at least
one entry. -/
def isSchedWithDay1 : ScheduleResult → Bool
  | .schedule ((1, _ :: _) :: _) => true
  | _ => false

/-- A topic survives the `suggest_practice_tasks` filter: it matches some
focus substring (or the focus list is empty) and has registered tasks. -/
def keepTopic (focus_list : List String) (t : String) : Bool :=
  (focus_list.isEmpty || isWeakTopic focus_list t) && ¬(tasksFor t).isEmpty

/-- The topic list of the module "generative ai". -/
def topics7 : List String :=
  ["LLM fundamentals", "Prompt engineering", "OpenAI & Groq APIs",
   "LangChain basics", "Agents and Tools", "RAG",
   "Agent security & guardrails"]

/-- Output of `build_study_schedule "generative ai" 7 (3/25) ""`: every
chunk of `3/50` hours is recorded as `round(0.06, 1) = 0.1`. -/
def drop7 : List (ℕ × List (String × ℚ)) :=
  [(1, [("LLM fundamentals", 1/10), ("LLM fundamentals", 1/10)]),
   (2, [("Prompt engineering", 1/10), ("Prompt engineering", 1/10)]),
   (3, [("OpenAI & Groq APIs", 1/10), ("OpenAI & Groq APIs", 1/10)]),
   (4, [("LangChain basics", 1/10), ("LangChain basics", 1/10)]),
   (5, [("Agents and Tools", 1/10), ("Agents and Tools", 1/10)]),
   (6, [("RAG", 1/10), ("RAG", 1/10)]),
   (7, [("Agent security & guardrails", 1/10),
        ("Agent security & guardrails", 1/10)])]

/-- Output of `build_study_schedule "generative ai" 5 3 ""`. -/
def plan5 : List (ℕ × List (String × ℚ)) :=
  [(1, [("LLM fundamentals", 3/2), ("LLM fundamentals", 3/5),
        ("Prompt engineering", 3/2)]),
   (2, [("Prompt engineering", 3/5), ("OpenAI & Groq APIs", 3/2),
        ("OpenAI & Groq APIs", 3/5)]),
   (3, [("LangChain basics", 3/2), ("LangChain basics", 3/5),
        ("Agents and Tools", 3/2)]),
   (4, [("Agents and Tools", 3/5), ("RAG", 3/2), ("RAG", 3/5)]),
   (5, [("Agent security & guardrails", 3/2),
        ("Agent security & guardrails", 3/5)])]

/-- Output of `build_study_schedule "generative ai" 1 2 ""`: the seventh
topic has its hours dropped when the day cursor passes day 1. -/
def drop1 : List (ℕ × List (String × ℚ)) :=
  [(1, [("LLM fundamentals", 3/10), ("Prompt engineering", 3/10),
        ("OpenAI & Groq APIs", 3/10), ("LangChain basics", 3/10),
        ("Agents and Tools", 3/10), ("RAG", 3/10)])]

unseal Rat.mul Rat.inv Rat.add Rat.sub

/-- C1, counterexample: at `days_until_exam = 7`, `hours_per_day = 3/25`,
no weak topics, every chunk of `3/50` hours is recorded as `0.1` after
1-decimal rounding, so the entries sum to `7/5`, exceeding
`days_until_exam * hours_per_day = 21/25`. -/
theorem C1_sum_counterexample :
    build_study_schedule "generative ai" 7 (3/25) "" =
      ScheduleResult.schedule drop7 ∧
    outSum drop7 = 7/5 ∧ ¬ outSum drop7 ≤ (7 : ℚ) * (3/25) := by
  refine ⟨by decide, by decide, by decide⟩

/-- C2, counterexample: at `hours_per_day = 3/25` the chunk cap is
`3/50 = 0.06`, but the recorded first entry of day 1 is
`round(0.06, 1) = 0.1 > 0.06`. -/
theorem C2_chunk_counterexample :
    build_study_schedule "generative ai" 7 (3/25) "" =
      ScheduleResult.schedule drop7 ∧
    drop7.headD (0, []) =
      (1, [("LLM fundamentals", 1/10), ("LLM fundamentals", 1/10)]) ∧
    ¬ ((1/10 : ℚ) ≤ (3/25) / 2) := by
  refine ⟨by decide, by decide, by decide⟩

/-- C5: `build_study_schedule "generative ai" 5 3 ""` yields a schedule
covering all 7 catalog topics across nonempty days, with all weights `1`
and a uniform allocation of `15/7` hours per topic. -/
theorem C5_uniform_schedule :
    build_study_schedule "generative ai" 5 3 "" = ScheduleResult.schedule plan5 ∧
    syllabusGet "generative ai" = some topics7 ∧
    topicWeights (parseCSV "") topics7 = [1, 1, 1, 1, 1, 1, 1] ∧
    topicHours 5 3 (parseCSV "") topics7 = List.replicate 7 (15/7) ∧
    (topics7.all fun t => plan5.any fun p => p.2.any fun e => e.1 = t) = true ∧
    plan5 ≠ [] := by
  refine ⟨by decide, by decide, by decide, by decide, by decide, by decide⟩

/-- C8: `suggest_practice_tasks "generative ai" "RAG"` returns exactly the
topic "RAG" with its two registered tasks and nothing else. -/
theorem C8_rag_tasks :
    suggest_practice_tasks "generative ai" "RAG" =
      TaskResult.tasks
        [("RAG",
          ["Implement a basic RAG pipeline using a single PDF.",
           "Experiment with different chunk sizes and compare answer quality."])] := by
  decide

/-- C4: once the day cursor exceeds `days_until_exam`, the packing loop
returns at once — the leftover `remaining` hours of the current topic (and
of every later topic) produce no entries and no error outcome.  The call
still returns a normal schedule, as the concrete run
`build_study_schedule "generative ai" 1 2 ""` shows: only `9/5` of the
`2` available hours are scheduled and the seventh topic never appears. -/
theorem C4_silent_drop (hpd : ℚ) (d : ℕ) (topic : String) (fuel : ℕ)
    (r : ℚ) (st : PackSt) (hd : d < st.day) :
    packLoop hpd d topic fuel r st = ⟨st, r⟩ ∧
    build_study_schedule "generative ai" 1 2 "" =
      ScheduleResult.schedule drop1 ∧
    outSum drop1 = 9/5 ∧
    (drop1.all fun p =>
      p.2.all fun e => ¬ e.1 = "Agent security & guardrails") = true := by
  refine ⟨?_, by decide, by decide, by decide⟩
  cases fuel with
  | zero => rfl
  | succ n =>
    have hng : ¬(0 < r ∧ st.day ≤ d) := by rintro ⟨-, h2⟩; omega
    simp only [packLoop, if_neg hng]

/-- Witness for C4 at a concrete state: cursor `2` already exceeds the
horizon `d = 1`, so the loop drops the remaining hour untouched. -/
theorem C4_silent_drop_witness :
    packLoop 1 1 "t" 5 1 ⟨2, [[]]⟩ = ⟨⟨2, [[]]⟩, 1⟩ :=
  (C4_silent_drop 1 1 "t" 5 1 ⟨2, [[]]⟩ (by decide)).1

/-- C6: for any module name whose lower-cased and trimmed form is not a key
of the syllabus, each of the three tools returns the `NotFound` outcome
carrying the original module name (no weighting or schedule is computed:
the functions return before reaching those steps). -/
theorem C6_unknown_module (m : String) (h : syllabusGet (normKey m) = none)
    (d : ℕ) (hpd : ℚ) (w f : String) :
    get_module_outline m = OutlineResult.notFound m ∧
    build_study_schedule m d hpd w = ScheduleResult.notFound m ∧
    suggest_practice_tasks m f = TaskResult.notFound m := by
  refine ⟨?_, ?_, ?_⟩
  · simp only [get_module_outline, h]
  · simp only [build_study_schedule, h]
  · simp only [suggest_practice_tasks, h]

/-- Witness for C6 at the concrete unknown module name of the spec. -/
theorem C6_unknown_module_witness :
    get_module_outline "nonexistent module" =
      OutlineResult.notFound "nonexistent module" ∧
    build_study_schedule "nonexistent module" 1 1 "" =
      ScheduleResult.notFound "nonexistent module" ∧
    suggest_practice_tasks "nonexistent module" "" =
      TaskResult.notFound "nonexistent module" :=
  C6_unknown_module "nonexistent module" (by decide) 1 1 "" ""

/-- Value of `getD` over `map` at an in-range index. -/
theorem listGetDMap {α β : Type} (f : α → β) (dfa : α) (dfb : β) :
    ∀ (l : List α) (n : ℕ), n < l.length →
      (l.map f).getD n dfb = f (l.getD n dfa)
  | _ :: _, 0, _ => rfl
  | _ :: tl, n + 1, h => listGetDMap f dfa dfb tl n (by simpa using h)
  | [], _, h => absurd h (by simp)

/-- C3: holding the topic list, weak set and total hours fixed, a topic
matching some weak substring gets weight 2 and exactly twice the hour
allocation of a topic matching none (weight 1). -/
theorem C3_weak_double (days : ℕ) (hpd : ℚ) (wl topics : List String)
    (i j : ℕ) (hi : i < topics.length) (hj : j < topics.length)
    (hwi : isWeakTopic wl (topics.getD i "") = true)
    (hwj : isWeakTopic wl (topics.getD j "") = false) :
    weightOf wl (topics.getD i "") = 2 ∧
    weightOf wl (topics.getD j "") = 1 ∧
    (topicHours days hpd wl topics).getD i 0 =
      2 * (topicHours days hpd wl topics).getD j 0 := by
  have h2 : weightOf wl (topics.getD i "") = 2 := by
    rw [weightOf, if_pos hwi]
  have h1 : weightOf wl (topics.getD j "") = 1 := by
    have hne : ¬ isWeakTopic wl (topics.getD j "") = true := by
      intro hc
      rw [hwj] at hc
      exact Bool.false_ne_true hc
    rw [weightOf, if_neg hne]
  refine ⟨h2, h1, ?_⟩
  have hwl : (topicWeights wl topics).length = topics.length := by
    simp [topicWeights]
  have hiw : i < (topicWeights wl topics).length := by rw [hwl]; exact hi
  have hjw : j < (topicWeights wl topics).length := by rw [hwl]; exact hj
  simp only [topicHours]
  rw [listGetDMap _ 0 0 _ i hiw, listGetDMap _ 0 0 _ j hjw,
    show topicWeights wl topics = topics.map (weightOf wl) from rfl,
    listGetDMap (weightOf wl) "" 0 topics i hi,
    listGetDMap (weightOf wl) "" 0 topics j hj, h2, h1]
  push_cast
  ring

/-- Witness for C3: with weak set `["rag"]`, topic "RAG" (weight 2) gets
`10` hours, topic "LLM fundamentals" (weight 1) gets `5`. -/
theorem C3_weak_double_witness :
    weightOf ["rag"] (["RAG", "LLM fundamentals"].getD 0 "") = 2 ∧
    weightOf ["rag"] (["RAG", "LLM fundamentals"].getD 1 "") = 1 ∧
    (topicHours 5 3 ["rag"] ["RAG", "LLM fundamentals"]).getD 0 0 =
      2 * (topicHours 5 3 ["rag"] ["RAG", "LLM fundamentals"]).getD 1 0 :=
  C3_weak_double 5 3 ["rag"] ["RAG", "LLM fundamentals"] 0 1
    (by decide) (by decide) (by decide) (by decide)

/-- C10: with positive `hours_per_day`, fuel `fuelFor hpd r` makes the
packing loop exit normally — afterwards its guard
`remaining > 0 and day <= days_until_exam` is false, so each iteration
consumed `min remaining (hpd / 2) > 0` until the hours of the topic ran
out or the day cursor passed the horizon.  Hence the fueled `packLoop`
computes the result of the source loop: it terminates on every such
input. -/
theorem C10_loop_fuel (hpd : ℚ) (d : ℕ) (topic : String) (hh : 0 < hpd) :
    ∀ (fuel : ℕ) (r : ℚ) (st : PackSt), fuelFor hpd r ≤ fuel →
      ¬(0 < (packLoop hpd d topic fuel r st).rem ∧
        (packLoop hpd d topic fuel r st).st.day ≤ d) := by
  intro fuel
  induction fuel with
  | zero =>
    intro r st hle
    exact absurd hle (by simp [fuelFor])
  | succ n ih =>
    intro r st hle
    by_cases hg : 0 < r ∧ st.day ≤ d
    · have hrpos : 0 < r := hg.1
      have hquot : 0 < 2 * r / hpd := by positivity
      have hceil : 1 ≤ Int.ceil (2 * r / hpd) := Int.ceil_pos.mpr hquot
      simp only [packLoop, if_pos hg]
      apply ih
      rcases le_or_lt r (hpd / 2) with hcase | hcase
      · have hmin : min r (hpd / 2) = r := min_eq_left hcase
        rw [hmin, sub_self]
        have h0 : fuelFor hpd 0 = 1 := by
          simp [fuelFor]
        rw [h0]
        have : 2 ≤ fuelFor hpd r := by
          unfold fuelFor
          omega
        omega
      · have hmin : min r (hpd / 2) = hpd / 2 := min_eq_right hcase.le
        rw [hmin]
        have harg : 2 * (r - hpd / 2) / hpd = 2 * r / hpd - 1 := by
          field_simp
          ring
        have hstep : fuelFor hpd (r - hpd / 2) + 1 = fuelFor hpd r := by
          unfold fuelFor
          rw [harg, Int.ceil_sub_one]
          omega
        omega
    · simp only [packLoop, if_neg hg]
      exact hg

/-- Witness for C10: at `hpd = 2`, `r = 3`, the bound `fuelFor 2 3 = 4`
suffices and the loop guard is false on exit. -/
theorem C10_loop_fuel_witness :
    ¬(0 < (packLoop 2 2 "t" 4 3 ⟨1, [[], []]⟩).rem ∧
      (packLoop 2 2 "t" 4 3 ⟨1, [[], []]⟩).st.day ≤ 2) :=
  C10_loop_fuel 2 2 "t" (by norm_num) 4 3 ⟨1, [[], []]⟩ (by decide)

/-- The loop body of `suggest_practice_tasks` keeps exactly the topics
accepted by `keepTopic`, pairing them with their task lists. -/
theorem taskEntry_eq_keep (fl : List String) (t : String) :
    taskEntry fl t = if keepTopic fl t then some (t, tasksFor t) else none := by
  unfold taskEntry keepTopic
  by_cases h1 : fl.isEmpty <;> by_cases h2 : isWeakTopic fl t <;>
    by_cases h3 : (tasksFor t).isEmpty <;>
    simp [h1, h2, h3]

/-- The topic loop of `suggest_practice_tasks` as filter-then-map. -/
theorem filterMapKeep (fl : List String) (topics : List String) :
    topics.filterMap (taskEntry fl) =
      (topics.filter (keepTopic fl)).map (fun t => (t, tasksFor t)) := by
  induction topics with
  | nil => rfl
  | cons a tl ih =>
    rw [List.filterMap_cons, List.filter_cons]
    by_cases h : keepTopic fl a
    · simp [taskEntry_eq_keep, h, ih]
    · simp [taskEntry_eq_keep, h, ih]

/-- C7: for a known module, `suggest_practice_tasks` returns `NoMatches`
iff every topic is filtered out by the focus substrings or has no
registered tasks; otherwise it returns, in catalog order, exactly the
surviving topics paired with their full task lists. -/
theorem C7_filter_characterization (m f : String) (topics : List String)
    (hm : syllabusGet (normKey m) = some topics)
    (hne : topics.isEmpty = false) :
    (suggest_practice_tasks m f = TaskResult.noMatches ↔
      ∀ t ∈ topics, keepTopic (parseCSV f) t = false) ∧
    (suggest_practice_tasks m f ≠ TaskResult.noMatches →
      suggest_practice_tasks m f =
        TaskResult.tasks ((topics.filter (keepTopic (parseCSV f))).map
          (fun t => (t, tasksFor t)))) := by
  have hs : suggest_practice_tasks m f =
      (if ((topics.filter (keepTopic (parseCSV f))).map
            (fun t => (t, tasksFor t))).isEmpty
       then TaskResult.noMatches
       else TaskResult.tasks ((topics.filter (keepTopic (parseCSV f))).map
            (fun t => (t, tasksFor t)))) := by
    simp only [suggest_practice_tasks, hm, hne, Bool.false_eq_true, if_false,
      filterMapKeep]
  by_cases hp : topics.filter (keepTopic (parseCSV f)) = []
  · have hres : suggest_practice_tasks m f = TaskResult.noMatches := by
      rw [hs, hp]
      rfl
    refine ⟨?_, fun hc => absurd hres hc⟩
    rw [hres]
    constructor
    · intro _ t ht
      have hnot := List.filter_eq_nil_iff.mp hp t ht
      simpa using hnot
    · intro _
      rfl
  · have hres : suggest_practice_tasks m f =
        TaskResult.tasks ((topics.filter (keepTopic (parseCSV f))).map
          (fun t => (t, tasksFor t))) := by
      rw [hs, if_neg]
      simp [hp]
    refine ⟨?_, fun _ => hres⟩
    rw [hres]
    constructor
    · intro hc
      exact absurd hc (by simp)
    · intro hall
      obtain ⟨t, ht⟩ := List.exists_mem_of_ne_nil _ hp
      have htop := List.mem_filter.mp ht
      have hfalse := hall t htop.1
      rw [hfalse] at htop
      exact absurd htop.2 (by simp)

/-- Witness for C7 at the focus "RAG": the non-`NoMatches` branch returns
exactly the filtered topic list with its tasks. -/
theorem C7_filter_characterization_witness :
    suggest_practice_tasks "generative ai" "RAG" =
      TaskResult.tasks ((topics7.filter (keepTopic (parseCSV "RAG"))).map
        (fun t => (t, tasksFor t))) :=
  (C7_filter_characterization "generative ai" "RAG" topics7
    (by decide) (by decide)).2 (by decide)

/-- Appending an entry anywhere never empties the list of day 1. -/
theorem appendAt_getDzero (s : List (List (String × ℚ))) (i : ℕ)
    (e : String × ℚ) (h : s.getD 0 [] ≠ []) :
    (appendAt s i e).getD 0 [] ≠ [] := by
  cases s with
  | nil => simp at h
  | cons hd tl =>
    cases i with
    | zero => simp [appendAt]
    | succ k => simpa [appendAt] using h

/-- The packing loop only appends entries, so day 1 stays nonempty. -/
theorem packLoop_keeps_day1 (hpd : ℚ) (d : ℕ) (topic : String) :
    ∀ (fuel : ℕ) (r : ℚ) (st : PackSt), st.sched.getD 0 [] ≠ [] →
      ((packLoop hpd d topic fuel r st).st.sched).getD 0 [] ≠ [] := by
  intro fuel
  induction fuel with
  | zero => intro r st h; exact h
  | succ n ih =>
    intro r st h
    by_cases hg : 0 < r ∧ st.day ≤ d
    · simp only [packLoop, if_pos hg]
      exact ih _ _ (appendAt_getDzero _ _ _ h)
    · simp only [packLoop, if_neg hg]
      exact h

/-- The outer topic loop only appends entries, so day 1 stays nonempty. -/
theorem packAll_keeps_day1 (hpd : ℚ) (d : ℕ) :
    ∀ (pairs : List (String × ℚ)) (st : PackSt), st.sched.getD 0 [] ≠ [] →
      ((packAll hpd d pairs st).sched).getD 0 [] ≠ [] := by
  intro pairs
  induction pairs with
  | nil => intro st h; exact h
  | cons p rest ih =>
    intro st h
    obtain ⟨topic, hrs⟩ := p
    simp only [packAll]
    exact ih _ (packLoop_keeps_day1 hpd d topic _ hrs st h)

/-- With a positive first allocation, day 1, and at least one day, the
first iteration of the packing loop appends an entry to day 1. -/
theorem packLoop_first_append (hpd : ℚ) (d : ℕ) (topic : String) (r : ℚ)
    (st : PackSt) (hday : st.day = 1) (hd : 1 ≤ d) (hr : 0 < r)
    (hlen : 0 < st.sched.length) :
    ((packLoop hpd d topic (fuelFor hpd r) r st).st.sched).getD 0 [] ≠ [] := by
  have hg : 0 < r ∧ st.day ≤ d := ⟨hr, by omega⟩
  unfold fuelFor
  simp only [packLoop, if_pos hg]
  apply packLoop_keeps_day1
  show (appendAt st.sched (st.day - 1) _).getD 0 [] ≠ []
  rw [hday]
  cases hs : st.sched with
  | nil => rw [hs] at hlen; simp at hlen
  | cons hd0 tl => simp [appendAt]

/-- A nonempty topic list gives a positive total weight (every weight is
1 or 2). -/
theorem topicWeights_sum_pos (wl : List String) (topics : List String)
    (h : topics ≠ []) : 0 < (topicWeights wl topics).sum := by
  cases topics with
  | nil => exact absurd rfl h
  | cons a tl =>
    have h1 : 1 ≤ weightOf wl a := by unfold weightOf; split <;> omega
    rw [topicWeights, List.map_cons, List.sum_cons]
    omega

/-- Every per-topic allocation is positive for a valid request. -/
theorem topicHours_pos (d : ℕ) (hpd : ℚ) (wl topics : List String)
    (hd : 1 ≤ d) (hh : 0 < hpd) (x : ℚ)
    (hx : x ∈ topicHours d hpd wl topics) : 0 < x := by
  simp only [topicHours] at hx
  obtain ⟨wq, hwq, rfl⟩ := List.mem_map.mp hx
  have hw1 : 0 < wq := by
    simp only [topicWeights] at hwq
    obtain ⟨t, _, rfl⟩ := List.mem_map.mp hwq
    unfold weightOf
    split <;> omega
  have hWpos : 0 < (topicWeights wl topics).sum :=
    lt_of_lt_of_le hw1 (List.single_le_sum (fun x _ => Nat.zero_le x) _ hwq)
  apply mul_pos
  · exact div_pos (by exact_mod_cast hw1) (by exact_mod_cast hWpos)
  · apply mul_pos _ hh
    have hd0 : 0 < d := hd
    exact_mod_cast hd0

/-- C9: for every known module with a nonempty topic list, at least one
day until the exam and positive hours per day, `build_study_schedule`
returns a schedule (the `Unbuildable` branch is unreachable) whose first
listed day is day 1 with at least one entry; the total weight divided by
is also positive. -/
theorem C9_day_one (m : String) (d : ℕ) (hpd : ℚ) (w : String)
    (ts : List String) (hm : syllabusGet (normKey m) = some ts)
    (hts : ts ≠ []) (hd : 1 ≤ d) (hh : 0 < hpd) :
    isSchedWithDay1 (build_study_schedule m d hpd w) = true ∧
    0 < (topicWeights (parseCSV w) ts).sum := by
  refine ⟨?_, topicWeights_sum_pos _ _ hts⟩
  obtain ⟨t, ts', rfl⟩ : ∃ a l, ts = a :: l := by
    cases ts with
    | nil => exact absurd rfl hts
    | cons a l => exact ⟨a, l, rfl⟩
  have hie : (t :: ts').isEmpty = false := rfl
  cases hhrs : topicHours d hpd (parseCSV w) (t :: ts') with
  | nil =>
    have hlen : (topicHours d hpd (parseCSV w) (t :: ts')).length =
        ts'.length + 1 := by
      simp [topicHours, topicWeights]
    rw [hhrs] at hlen
    simp at hlen
  | cons h1 hrest =>
    have hh1 : 0 < h1 :=
      topicHours_pos d hpd _ _ hd hh h1 (by rw [hhrs]; exact List.mem_cons_self _ _)
    have hK : (packAll hpd d ((t, h1) :: ts'.zip hrest)
        ⟨1, List.replicate d []⟩).sched.getD 0 [] ≠ [] := by
      simp only [packAll]
      apply packAll_keeps_day1
      apply packLoop_first_append
      · rfl
      · exact hd
      · exact hh1
      · simpa using hd
    simp only [build_study_schedule, hm, hie, Bool.false_eq_true, if_false]
    rw [hhrs, List.zip_cons_cons]
    cases hKs : (packAll hpd d ((t, h1) :: ts'.zip hrest)
        ⟨1, List.replicate d []⟩).sched with
    | nil => rw [hKs] at hK; simp at hK
    | cons l0 rest2 =>
      rw [hKs] at hK
      have hl0 : l0 ≠ [] := by simpa using hK
      have htd : toDays 1 (l0 :: rest2) = (1, l0) :: toDays 2 rest2 := by
        rw [toDays, if_neg hl0]
      rw [htd]
      cases l0 with
      | nil => exact absurd rfl hl0
      | cons e es => rfl

/-- Witness for C9 at a concrete valid request (weak topic "rag"). -/
theorem C9_day_one_witness :
    isSchedWithDay1 (build_study_schedule "generative ai" 1 1 "rag") = true ∧
    0 < (topicWeights (parseCSV "rag") topics7).sum :=
  C9_day_one "generative ai" 1 1 "rag" topics7 (by decide) (by decide)
    (by decide) (by norm_num)

/-- Nearest-integer rounding (ties to even) is within one half above. -/
theorem rnd2_le (y : ℚ) : (rnd2 y : ℚ) ≤ y + 1/2 := by
  unfold rnd2
  have hf : ((⌊y⌋ : ℤ) : ℚ) ≤ y := Int.floor_le y
  split_ifs with h1 h2 h3
  · linarith
  · push_cast
    linarith
  · linarith
  · have hne : ¬ y - (⌊y⌋ : ℚ) < 1/2 := h1
    push_cast
    linarith [not_lt.mp h1]

/-- `round(x, 1)` exceeds `x` by at most `1/20`. -/
theorem roundTenth_le (x : ℚ) : roundTenth x ≤ x + 1/20 := by
  unfold roundTenth
  rw [div_le_iff₀ (by norm_num : (0:ℚ) < 10)]
  have := rnd2_le (10 * x)
  linarith

/-- `appendAt` preserves the number of days. -/
theorem appendAt_length (s : List (List (String × ℚ))) (i : ℕ)
    (e : String × ℚ) : (appendAt s i e).length = s.length := by
  simp [appendAt]

/-- Appending an entry at an in-range day adds its hours to the total. -/
theorem appendAt_schedSum (s : List (List (String × ℚ))) (i : ℕ)
    (e : String × ℚ) (h : i < s.length) :
    schedSum (appendAt s i e) = schedSum s + e.2 := by
  induction s generalizing i with
  | nil => simp at h
  | cons hd tl ih =>
    cases i with
    | zero =>
      show schedSum ((hd ++ [e]) :: tl) = schedSum (hd :: tl) + e.2
      simp [schedSum]
      ring
    | succ k =>
      have hk : k < tl.length := by simpa using h
      show schedSum (hd :: appendAt tl k e) = schedSum (hd :: tl) + e.2
      simp only [schedSum, List.map_cons, List.sum_cons]
      have := ih k hk
      simp only [schedSum] at this
      rw [this]
      ring

/-- Appending an entry at an in-range day adds one to the entry count. -/
theorem appendAt_schedCount (s : List (List (String × ℚ))) (i : ℕ)
    (e : String × ℚ) (h : i < s.length) :
    schedCount (appendAt s i e) = schedCount s + 1 := by
  induction s generalizing i with
  | nil => simp at h
  | cons hd tl ih =>
    cases i with
    | zero =>
      show schedCount ((hd ++ [e]) :: tl) = schedCount (hd :: tl) + 1
      simp [schedCount]
      omega
    | succ k =>
      have hk : k < tl.length := by simpa using h
      show schedCount (hd :: appendAt tl k e) = schedCount (hd :: tl) + 1
      simp only [schedCount, List.map_cons, List.sum_cons]
      have := ih k hk
      simp only [schedCount] at this
      rw [this]
      ring

/-- One unfolding of the packing loop when its guard holds. -/
theorem packLoop_step (hpd : ℚ) (d : ℕ) (topic : String) (n : ℕ) (r : ℚ)
    (st : PackSt) (hg : 0 < r ∧ st.day ≤ d) :
    packLoop hpd d topic (n + 1) r st =
      packLoop hpd d topic n (r - min r (hpd / 2))
        ⟨(if hpd * (9/10) ≤ (((appendAt st.sched (st.day - 1)
            (topic, roundTenth (min r (hpd / 2)))).getD (st.day - 1) []).map
            Prod.snd).sum then st.day + 1 else st.day),
         appendAt st.sched (st.day - 1)
           (topic, roundTenth (min r (hpd / 2)))⟩ := by
  simp only [packLoop, if_pos hg]

/-- Invariant of the packing loop: `remaining` stays in `[0, r]`, the day
matrix keeps its shape, entries are only added, and the recorded hours grow
by at most the consumed hours plus `1/20` per new entry. -/
theorem packLoop_inv (hpd : ℚ) (d : ℕ) (topic : String) (hh : 0 ≤ hpd) :
    ∀ (fuel : ℕ) (r : ℚ) (st : PackSt) (res : LoopRes),
      packLoop hpd d topic fuel r st = res →
      0 ≤ r → st.sched.length = d → 1 ≤ st.day →
      0 ≤ res.rem ∧ res.rem ≤ r ∧
      res.st.sched.length = d ∧ 1 ≤ res.st.day ∧
      schedCount st.sched ≤ schedCount res.st.sched ∧
      schedSum res.st.sched ≤ schedSum st.sched + (r - res.rem) +
        ((schedCount res.st.sched : ℚ) - (schedCount st.sched : ℚ)) / 20 := by
  intro fuel
  induction fuel with
  | zero =>
    intro r st res heq h0 hlen hday
    simp only [packLoop] at heq
    subst heq
    exact ⟨h0, le_rfl, hlen, hday, le_rfl, by simp⟩
  | succ n ih =>
    intro r st res heq h0 hlen hday
    by_cases hg : 0 < r ∧ st.day ≤ d
    · rw [packLoop_step hpd d topic n r st hg] at heq
      have hchunk_le : min r (hpd / 2) ≤ r := min_le_left _ _
      have hchunk_nonneg : 0 ≤ min r (hpd / 2) :=
        le_min (le_of_lt hg.1) (div_nonneg hh (by norm_num))
      have hidx : st.day - 1 < st.sched.length := by
        have h2 := hg.2
        omega
      set sched1 := appendAt st.sched (st.day - 1)
        (topic, roundTenth (min r (hpd / 2))) with hs1
      set day1 := (if hpd * (9/10) ≤
          ((sched1.getD (st.day - 1) []).map Prod.snd).sum
        then st.day + 1 else st.day) with hd1
      have hsum1 : schedSum sched1 = schedSum st.sched +
          roundTenth (min r (hpd / 2)) :=
        appendAt_schedSum st.sched (st.day - 1)
          (topic, roundTenth (min r (hpd / 2))) hidx
      have hcnt1 : schedCount sched1 = schedCount st.sched + 1 :=
        appendAt_schedCount st.sched (st.day - 1)
          (topic, roundTenth (min r (hpd / 2))) hidx
      have hlen1 : sched1.length = d := by
        rw [hs1, appendAt_length]
        exact hlen
      have hday1 : 1 ≤ day1 := by
        rw [hd1]
        split <;> omega
      obtain ⟨hr0, hrle, hlenr, hdayr, hcntle, hsumle⟩ :=
        ih (r - min r (hpd / 2)) ⟨day1, sched1⟩ res heq (by linarith) hlen1 hday1
      have hcntle2 : schedCount sched1 ≤ schedCount res.st.sched := hcntle
      have hsumle2 : schedSum res.st.sched ≤ schedSum sched1 +
          ((r - min r (hpd / 2)) - res.rem) +
          ((schedCount res.st.sched : ℚ) - (schedCount sched1 : ℚ)) / 20 := hsumle
      refine ⟨hr0, by linarith, hlenr, hdayr, by omega, ?_⟩
      have hround := roundTenth_le (min r (hpd / 2))
      have hc1 : ((schedCount sched1 : ℕ) : ℚ) =
          (schedCount st.sched : ℚ) + 1 := by
        rw [hcnt1]
        push_cast
        ring
      rw [hsum1, hc1] at hsumle2
      linarith
    · simp only [packLoop, if_neg hg] at heq
      subst heq
      exact ⟨h0, le_rfl, hlen, hday, le_rfl, by simp⟩

/-- Invariant of the outer topic loop: the recorded hours are bounded by
the total allocated hours plus `1/20` per entry. -/
theorem packAll_inv (hpd : ℚ) (d : ℕ) (hh : 0 ≤ hpd) :
    ∀ (pairs : List (String × ℚ)) (st : PackSt) (K : PackSt),
      packAll hpd d pairs st = K →
      (∀ p ∈ pairs, 0 ≤ Prod.snd p) → st.sched.length = d → 1 ≤ st.day →
      K.sched.length = d ∧ 1 ≤ K.day ∧
      schedCount st.sched ≤ schedCount K.sched ∧
      schedSum K.sched ≤ schedSum st.sched + (pairs.map Prod.snd).sum +
        ((schedCount K.sched : ℚ) - (schedCount st.sched : ℚ)) / 20 := by
  intro pairs
  induction pairs with
  | nil =>
    intro st K heq hpos hlen hday
    simp only [packAll] at heq
    subst heq
    exact ⟨hlen, hday, le_rfl, by simp⟩
  | cons p rest ih =>
    intro st K heq hpos hlen hday
    obtain ⟨topic, hrs⟩ := p
    simp only [packAll] at heq
    have hhrs0 : 0 ≤ hrs := hpos (topic, hrs) (List.mem_cons_self _ _)
    obtain ⟨hr0, hrle, hlen1, hday1, hcnt1, hsum1⟩ :=
      packLoop_inv hpd d topic hh (fuelFor hpd hrs) hrs st
        (packLoop hpd d topic (fuelFor hpd hrs) hrs st) rfl hhrs0 hlen hday
    obtain ⟨hlenK, hdayK, hcntK, hsumK⟩ :=
      ih _ K heq (fun q hq => hpos q (List.mem_cons_of_mem _ hq)) hlen1 hday1
    refine ⟨hlenK, hdayK, by omega, ?_⟩
    rw [List.map_cons, List.sum_cons]
    have hcast1 : ((schedCount st.sched : ℕ) : ℚ) ≤
        ((schedCount (packLoop hpd d topic (fuelFor hpd hrs) hrs st).st.sched : ℕ) : ℚ) := by
      exact_mod_cast hcnt1
    linarith

/-- The allocations sum to `total_weight / total_weight * total_hours`,
i.e. exactly `days * hours_per_day`, for a nonempty topic list. -/
theorem sumMapDivMul (W T : ℚ) : ∀ l : List ℕ,
    (l.map (fun w : ℕ => (w : ℚ) / W * T)).sum = ((l.sum : ℚ) / W) * T
  | [] => by simp
  | a :: tl => by
    rw [List.map_cons, List.sum_cons, sumMapDivMul W T tl, List.sum_cons]
    push_cast
    ring

/-- The hour allocator distributes exactly `days * hours_per_day`. -/
theorem topicHours_sum (d : ℕ) (hpd : ℚ) (wl topics : List String)
    (h : topics ≠ []) :
    (topicHours d hpd wl topics).sum = (d : ℚ) * hpd := by
  have hW : 0 < (topicWeights wl topics).sum := topicWeights_sum_pos wl topics h
  show ((topicWeights wl topics).map
    (fun w : ℕ => (w : ℚ) / ((topicWeights wl topics).sum : ℚ) *
      ((d : ℚ) * hpd))).sum = (d : ℚ) * hpd
  rw [sumMapDivMul]
  have hWq : ((topicWeights wl topics).sum : ℚ) ≠ 0 := by
    have hpos : (0 : ℚ) < ((topicWeights wl topics).sum : ℚ) := by
      exact_mod_cast hW
    exact ne_of_gt hpos
  rw [div_self hWq, one_mul]

/-- Omitting empty days changes neither the total hours nor the entry
count of the formatted schedule. -/
theorem toDays_sums : ∀ (s : List (List (String × ℚ))) (n : ℕ),
    outSum (toDays n s) = schedSum s ∧ outCount (toDays n s) = schedCount s := by
  intro s
  induction s with
  | nil =>
    intro n
    constructor <;> rfl
  | cons es rest ih =>
    intro n
    obtain ⟨ih1, ih2⟩ := ih (n + 1)
    by_cases h : es = []
    · have ht : toDays n (es :: rest) = toDays (n + 1) rest := by
        rw [toDays, if_pos h]
      rw [ht]
      subst h
      constructor
      · rw [ih1]
        simp [schedSum]
      · rw [ih2]
        simp [schedCount]
    · have ht : toDays n (es :: rest) = (n, es) :: toDays (n + 1) rest := by
        rw [toDays, if_neg h]
      rw [ht]
      constructor
      · simp only [outSum, List.map_cons, List.sum_cons, schedSum]
        simp only [outSum] at ih1
        simp only [schedSum] at ih1
        rw [ih1]
      · simp only [outCount, List.map_cons, List.sum_cons, schedCount]
        simp only [outCount] at ih2
        simp only [schedCount] at ih2
        rw [ih2]

/-- The freshly initialised schedule carries no hours and no entries. -/
theorem replicate_sums (d : ℕ) :
    schedSum (List.replicate d []) = 0 ∧ schedCount (List.replicate d []) = 0 := by
  induction d with
  | zero => constructor <;> rfl
  | succ n ih =>
    rw [List.replicate_succ]
    constructor
    · simp only [schedSum, List.map_cons, List.sum_cons]
      simp only [schedSum] at ih
      rw [ih.1]
      simp
    · simp only [schedCount, List.map_cons, List.sum_cons]
      simp only [schedCount] at ih
      rw [ih.2]
      simp

/-- C1, amended: for a valid request the entries of the returned schedule
sum to at most `days_until_exam * hours_per_day` plus at most `1/20`
(one rounding step of `round(chunk, 1)`) per recorded entry.  The
underlying unrounded chunks never exceed the budget; only the 1-decimal
rounding of each entry can push the recorded total above it. -/
theorem C1_sum_bound (m : String) (d : ℕ) (hpd : ℚ) (w : String)
    (ts : List String) (hm : syllabusGet (normKey m) = some ts)
    (hd : 1 ≤ d) (hh : 0 < hpd) (l : List (ℕ × List (String × ℚ)))
    (hout : build_study_schedule m d hpd w = ScheduleResult.schedule l) :
    outSum l ≤ (d : ℚ) * hpd + (outCount l : ℚ) / 20 := by
  simp only [build_study_schedule, hm] at hout
  by_cases hie : ts.isEmpty
  · rw [if_pos hie] at hout
    exact absurd hout (by simp)
  · rw [if_neg hie] at hout
    have hts : ts ≠ [] := by
      intro hc
      subst hc
      exact hie rfl
    set pairs := ts.zip (topicHours d hpd (parseCSV w) ts) with hpairs
    set K := packAll hpd d pairs ⟨1, List.replicate d []⟩ with hK
    by_cases hemp : (toDays 1 K.sched).isEmpty
    · rw [if_pos hemp] at hout
      exact absurd hout (by simp)
    · rw [if_neg hemp] at hout
      have hl : l = toDays 1 K.sched := by
        have := hout
        injection this with h1
        exact h1.symm
      have hlens : (topicHours d hpd (parseCSV w) ts).length = ts.length := by
        simp [topicHours, topicWeights]
      have hpos : ∀ p ∈ pairs, 0 ≤ Prod.snd p := by
        intro p hp
        have hmem := (List.of_mem_zip (by rw [hpairs] at hp; exact hp)).2
        exact le_of_lt (topicHours_pos d hpd _ _ hd hh _ hmem)
      obtain ⟨hlenK, hdayK, hcntK, hsumK⟩ :=
        packAll_inv hpd d (le_of_lt hh) pairs ⟨1, List.replicate d []⟩ K hK.symm
          hpos (by simp) (le_refl 1)
      have hsnd : pairs.map Prod.snd = topicHours d hpd (parseCSV w) ts := by
        rw [hpairs]
        exact List.map_snd_zip ts _ (le_of_eq hlens)
      have hsum0 := (replicate_sums d).1
      have hcnt0 := (replicate_sums d).2
      have hsched0 : schedSum (⟨1, List.replicate d []⟩ : PackSt).sched = 0 := hsum0
      have hcount0 : schedCount (⟨1, List.replicate d []⟩ : PackSt).sched = 0 := hcnt0
      have hsumK2 : schedSum K.sched ≤ (topicHours d hpd (parseCSV w) ts).sum +
          (schedCount K.sched : ℚ) / 20 := by
        rw [hsched0, hcount0, hsnd] at hsumK
        push_cast at hsumK
        linarith
      have htot := topicHours_sum d hpd (parseCSV w) ts hts
      obtain ⟨ho1, ho2⟩ := toDays_sums K.sched 1
      rw [hl, ho1, ho2]
      rw [htot] at hsumK2
      exact hsumK2

/-- Witness for the amended C1 bound at the request of C5. -/
theorem C1_sum_bound_witness :
    outSum plan5 ≤ ((5 : ℕ) : ℚ) * 3 + ((outCount plan5 : ℕ) : ℚ) / 20 :=
  C1_sum_bound "generative ai" 5 3 "" topics7 (by decide) (by decide)
    (by norm_num) plan5 (by decide)

/-- Appending an entry bounded by `b` preserves "all entries are at most
`b`". -/
theorem allLe_appendAt (b : ℚ) (s : List (List (String × ℚ))) (i : ℕ)
    (e : String × ℚ) (hs : ∀ es ∈ s, ∀ x ∈ es, Prod.snd x ≤ b)
    (he : Prod.snd e ≤ b) :
    ∀ es ∈ appendAt s i e, ∀ x ∈ es, Prod.snd x ≤ b := by
  intro es hes x hx
  rcases List.mem_or_eq_of_mem_set hes with h1 | h2
  · exact hs es h1 x hx
  · subst h2
    rcases List.mem_append.mp hx with hx1 | hx2
    · by_cases hi : i < s.length
      · refine hs _ ?_ x hx1
        rw [List.getD_eq_getElem s [] hi]
        exact List.getElem_mem hi
      · rw [List.getD_eq_default s [] (by omega)] at hx1
        simp at hx1
    · have hxe : x = e := by simpa using hx2
      subst hxe
      exact he

/-- Every entry recorded by the packing loop allots at most
`hours_per_day / 2 + 1/20` hours: the chunk is capped at `hpd / 2` and the
1-decimal rounding adds at most `1/20`. -/
theorem packLoop_chunk_le (hpd : ℚ) (d : ℕ) (topic : String) :
    ∀ (fuel : ℕ) (r : ℚ) (st : PackSt),
      (∀ es ∈ st.sched, ∀ x ∈ es, Prod.snd x ≤ hpd / 2 + 1/20) →
      ∀ es ∈ (packLoop hpd d topic fuel r st).st.sched, ∀ x ∈ es,
        Prod.snd x ≤ hpd / 2 + 1/20 := by
  intro fuel
  induction fuel with
  | zero => intro r st hs; exact hs
  | succ n ih =>
    intro r st hs
    by_cases hg : 0 < r ∧ st.day ≤ d
    · rw [packLoop_step hpd d topic n r st hg]
      apply ih
      apply allLe_appendAt _ _ _ _ hs
      have h1 : roundTenth (min r (hpd / 2)) ≤ min r (hpd / 2) + 1/20 :=
        roundTenth_le _
      have h2 : min r (hpd / 2) ≤ hpd / 2 := min_le_right _ _
      show roundTenth (min r (hpd / 2)) ≤ hpd / 2 + 1/20
      linarith
    · simp only [packLoop, if_neg hg]
      exact hs

/-- The bound of `packLoop_chunk_le`, carried through all topics. -/
theorem packAll_chunk_le (hpd : ℚ) (d : ℕ) :
    ∀ (pairs : List (String × ℚ)) (st : PackSt),
      (∀ es ∈ st.sched, ∀ x ∈ es, Prod.snd x ≤ hpd / 2 + 1/20) →
      ∀ es ∈ (packAll hpd d pairs st).sched, ∀ x ∈ es,
        Prod.snd x ≤ hpd / 2 + 1/20 := by
  intro pairs
  induction pairs with
  | nil => intro st hs; exact hs
  | cons p rest ih =>
    intro st hs
    obtain ⟨topic, hrs⟩ := p
    simp only [packAll]
    exact ih _ (packLoop_chunk_le hpd d topic _ hrs st hs)

/-- The formatted days are drawn from the raw per-day matrix. -/
theorem toDays_mem : ∀ (s : List (List (String × ℚ))) (n : ℕ)
    (p : ℕ × List (String × ℚ)), p ∈ toDays n s → p.2 ∈ s := by
  intro s
  induction s with
  | nil => intro n p hp; simp [toDays] at hp
  | cons es rest ih =>
    intro n p hp
    by_cases h : es = []
    · rw [toDays, if_pos h] at hp
      exact List.mem_cons_of_mem _ (ih (n + 1) p hp)
    · rw [toDays, if_neg h] at hp
      rcases List.mem_cons.mp hp with h1 | h2
      · subst h1
        exact List.mem_cons_self _ _
      · exact List.mem_cons_of_mem _ (ih (n + 1) p h2)

/-- C2, amended: in every returned schedule, each (topic, hours) entry
allots at most `hours_per_day / 2 + 1/20` hours — the chunk itself never
exceeds `hours_per_day / 2`, but the recorded value is the chunk rounded
to one decimal, which can add up to `1/20 = 0.05`. -/
theorem C2_chunk_bound (m : String) (d : ℕ) (hpd : ℚ) (w : String)
    (l : List (ℕ × List (String × ℚ)))
    (hout : build_study_schedule m d hpd w = ScheduleResult.schedule l) :
    entriesLeB (hpd / 2 + 1/20) l = true := by
  cases hsy : syllabusGet (normKey m) with
  | none =>
    simp only [build_study_schedule, hsy] at hout
    exact absurd hout (by simp)
  | some ts =>
    simp only [build_study_schedule, hsy] at hout
    by_cases hie : ts.isEmpty
    · rw [if_pos hie] at hout
      exact absurd hout (by simp)
    · rw [if_neg hie] at hout
      set K := packAll hpd d (ts.zip (topicHours d hpd (parseCSV w) ts))
        ⟨1, List.replicate d []⟩ with hK
      by_cases hemp : (toDays 1 K.sched).isEmpty
      · rw [if_pos hemp] at hout
        exact absurd hout (by simp)
      · rw [if_neg hemp] at hout
        have hl : l = toDays 1 K.sched := by
          injection hout with h1
          exact h1.symm
        have hrepl : ∀ es ∈ (⟨1, List.replicate d []⟩ : PackSt).sched,
            ∀ x ∈ es, Prod.snd x ≤ hpd / 2 + 1/20 := by
          intro es hes x hx
          have : es = [] := List.eq_of_mem_replicate hes
          subst this
          simp at hx
        have hall := packAll_chunk_le hpd d
          (ts.zip (topicHours d hpd (parseCSV w) ts))
          ⟨1, List.replicate d []⟩ hrepl
        rw [hl]
        rw [entriesLeB]
        rw [List.all_eq_true]
        intro p hp
        rw [List.all_eq_true]
        intro e he
        have hmem := toDays_mem K.sched 1 p hp
        have := hall p.2 (by rw [hK] at hmem; exact hmem) e he
        simpa using this

/-- Witness for the amended C2 bound at the request of C5. -/
theorem C2_chunk_bound_witness :
    entriesLeB ((3 : ℚ) / 2 + 1/20) plan5 = true :=
  C2_chunk_bound "generative ai" 5 3 "" plan5 (by decide)
